import Mathlib

/-!
Shallow embedding of `app/usergroupchatcontext/scripts/update_memory.py`
(the incremental Pinecone indexing pipeline): the chunker, the file-type /
deterministic-ID derivation, the delete-then-upsert synchronization, the
hash ledger commit discipline, and the per-file error isolation.

Text is modelled as `List Char` (Python `str` at code-point granularity);
the embedding provider and the vector store are modelled as oracles and an
explicit event trace.
-/

namespace UpdateMemory

/-! ## Python string primitives -/

/-- Python whitespace characters stripped by `str.strip()` (the inputs here
are ASCII, so the six ASCII whitespace characters suffice). -/
def isPySpace (c : Char) : Bool :=
  c = ' ' || c = '\t' || c = '\n' || c = '\r' || c = '\x0b' || c = '\x0c'

/-- Python `s.strip()`: drop leading and trailing whitespace. -/
def pyStrip (l : List Char) : List Char :=
  ((l.dropWhile isPySpace).reverse.dropWhile isPySpace).reverse

/-- Python slice `s[a:b]` (for `0 ≤ a ≤ b`). -/
def pySlice (l : List Char) (a b : Nat) : List Char :=
  (l.take b).drop a

/-- Python substring containment `sub in s`. -/
def strContains (s sub : List Char) : Bool :=
  if sub.isPrefixOf s then true
  else
    match s with
    | [] => false
    | _ :: t => strContains t sub

/-- Python `s.endswith(suffix)`. -/
def pyEndsWith (s suffix : List Char) : Bool :=
  suffix.isSuffixOf s

/-- Python `s.find(sub, a, b)`: the least index `i` with `a ≤ i` and
`i + len sub ≤ min b (len s)` at which `sub` occurs in `s`, as an `Option`
instead of the `-1` sentinel. -/
def pyFind (s sub : List Char) (a b : Nat) : Option Nat :=
  let b' := min b s.length
  if sub.length ≤ b' then
    (List.range (b' - sub.length + 1)).find?
      (fun i => decide (a ≤ i) && sub.isPrefixOf (s.drop i))
  else none

/-! ## Constants of `update_memory.py` -/

def EXTENSIONS_TO_INDEX : List (List Char) :=
  [".ts".data, ".tsx".data, ".js".data, ".jsx".data, ".md".data, ".txt".data, ".css".data]

def IGNORE_DIRS : List (List Char) :=
  [".git".data, "node_modules".data, "__pycache__".data]

def CHUNK_SIZE : Nat := 500

def CHUNK_OVERLAP : Nat := 100

/-! ## Path helpers (`os.path.basename`, `os.path.splitext`) -/

/-- `os.path.basename`: the part of the path after the last `'/'`. -/
def basenameOf (p : List Char) : List Char :=
  (p.reverse.takeWhile (fun c => c ≠ '/')).reverse

/-- The extension part of `os.path.splitext` applied to `p`: the suffix of
the basename from its last dot, where the leading dots of the basename do
not count as extension separators. -/
def splitextExt (p : List Char) : List Char :=
  let b := basenameOf p
  let core := b.drop (b.takeWhile (fun c => c = '.')).length
  if core.contains '.' then
    '.' :: (core.reverse.takeWhile (fun c => c ≠ '.')).reverse
  else []

/-- `should_index_file` (lines 81-94): extension allow-list plus
ignored-directory exclusion. -/
def should_index_file (p : List Char) : Bool :=
  EXTENSIONS_TO_INDEX.contains (splitextExt p)
    && IGNORE_DIRS.all (fun d => !(strContains p ('/' :: d ++ ['/'])))

/-! ## File-type classification -/

/-- The `file_type` computed by `create_metadata` (lines 158-180); this is
the classification that feeds the upsert document IDs. -/
def create_metadata_file_type (p : List Char) : List Char :=
  let ext := splitextExt p
  if [".ts".data, ".tsx".data, ".js".data, ".jsx".data].contains ext then
    if strContains p "components".data then "component".data
    else if strContains p "hooks".data then "hook".data
    else if strContains p "context".data then "context".data
    else if strContains p "utils".data then "utility".data
    else if strContains p "services".data then "service".data
    else if strContains p "types".data then "type_definition".data
    else "code".data
  else if ext = ".md".data then "documentation".data
  else if ext = ".css".data then "style".data
  else if ext = ".txt".data then "text".data
  else "unknown".data

/-- The `file_type` computed inside `delete_file_vectors` (lines 213-230):
a loop over the code extensions whose body only distinguishes `components`
and `hooks` (the remaining branches are elided in the source behind a
`... and so on` comment), followed by the `.md` / `.css` / `.txt` checks. -/
def delete_file_type (p : List Char) : List Char :=
  let loopType :=
    if [".ts".data, ".tsx".data, ".js".data, ".jsx".data].any (fun e => pyEndsWith p e) then
      if strContains p "components".data then "component".data
      else if strContains p "hooks".data then "hook".data
      else "unknown".data
    else "unknown".data
  if pyEndsWith p ".md".data then "documentation".data
  else if pyEndsWith p ".css".data then "style".data
  else if pyEndsWith p ".txt".data then "text".data
  else loopType

/-! ## Deterministic IDs -/

/-- `base_doc_id` (line 293): `usergroupchatcontext-{file_type}-{file_name}`
with the `create_metadata` file type. -/
def base_doc_id (p : List Char) : List Char :=
  "usergroupchatcontext-".data ++ create_metadata_file_type p ++ '-' :: basenameOf p

/-- Chunk document ID (line 303): `{base}-chunk-{n}` with 1-based `n`. -/
def docId (base : List Char) (n : Nat) : List Char :=
  base ++ "-chunk-".data ++ Nat.toDigits 10 n

/-- The 49 IDs `usergroupchatcontext-{file_type}-{file_name}-chunk-{1..49}`
built by `delete_file_vectors` (lines 242-244), using that function's own
file-type computation. -/
def delete_ids (p : List Char) : List (List Char) :=
  (List.range 49).map (fun i =>
    "usergroupchatcontext-".data ++ delete_file_type p ++ '-' :: basenameOf p
      ++ "-chunk-".data ++ Nat.toDigits 10 (i + 1))

/-- The batching loop `for i in range(0, len(ids), batch_size)`:
slice `l[i*k : i*k+k]` for each step. -/
def batchesOf (k : Nat) (l : List (List Char)) : List (List (List Char)) :=
  (List.range ((l.length + k - 1) / k)).map (fun i => (l.drop (i * k)).take k)

/-! ## The chunker (`chunk_text`, lines 96-141) -/

/-- One iteration of the `chunk_text` loop in the case `end < len(text)`,
reduced to its source interval: returns `(b, s')` where the emitted chunk is
`text[start:b].strip()` and `s'` is the new cursor.  Branches in source
order: paragraph break `"\n\n"`, sentence break `". "`, line break `"\n"`,
each searched in `[end - char_overlap, end + char_overlap)`, else a hard cut
at `end` with the cursor rewound by `char_overlap`. -/
def chunkStepIv (text : List Char) (cs co start : Nat) : Nat × Nat :=
  match pyFind text ['\n', '\n'] (start + cs - co) (start + cs + co) with
  | some p => (p, p)
  | none =>
    match pyFind text ['.', ' '] (start + cs - co) (start + cs + co) with
    | some p => (p + 1, p + 1)
    | none =>
      match pyFind text ['\n'] (start + cs - co) (start + cs + co) with
      | some p => (p, p)
      | none => (start + cs, start + cs - co)

/-- The chunk emitted by one loop iteration together with the new cursor. -/
def chunkStep (text : List Char) (cs co start : Nat) : List Char × Nat :=
  (pyStrip (pySlice text start (chunkStepIv text cs co start).1),
   (chunkStepIv text cs co start).2)

/-- The `while start < len(text)` loop of `chunk_text`, with explicit fuel
(the loop has no structural measure for arbitrary parameters; the
termination theorem shows the fuel `len(text) + 1` suffices whenever
`0 < overlap < chunk_size`). -/
def chunkAux (text : List Char) (cs co : Nat) : Nat → Nat → Option (List (List Char))
  | 0, _ => none
  | fuel + 1, start =>
    if start < text.length then
      if text.length ≤ start + cs then some [text.drop start]
      else
        (chunkAux text cs co fuel (chunkStep text cs co start).2).map
          (fun r => (chunkStep text cs co start).1 :: r)
    else some []

/-- `chunk_text` before discharging the fuel: `char_size = 4 * chunk_size`,
`char_overlap = 4 * overlap`; texts of at most `char_size` characters are
returned whole. -/
def chunk_textOpt (text : List Char) (size ov : Nat) : Option (List (List Char)) :=
  if text.length ≤ 4 * size then some [text]
  else chunkAux text (4 * size) (4 * ov) (text.length + 1) 0

/-- `chunk_text(text, chunk_size, overlap)`. -/
def chunk_text (text : List Char) (size ov : Nat) : List (List Char) :=
  (chunk_textOpt text size ov).getD []

/-- The source intervals `[start, b)` from which the chunks of `chunk_text`
are extracted (before whitespace trimming), following the same control flow
as `chunkAux`. -/
def chunkIntervalsAux (text : List Char) (cs co : Nat) : Nat → Nat → List (Nat × Nat)
  | 0, _ => []
  | fuel + 1, start =>
    if start < text.length then
      if text.length ≤ start + cs then [(start, text.length)]
      else
        (start, (chunkStepIv text cs co start).1)
          :: chunkIntervalsAux text cs co fuel (chunkStepIv text cs co start).2
    else []

/-- The source intervals of `chunk_text`. -/
def chunk_intervals (text : List Char) (size ov : Nat) : List (Nat × Nat) :=
  if text.length ≤ 4 * size then [(0, text.length)]
  else chunkIntervalsAux text (4 * size) (4 * ov) (text.length + 1) 0

/-- The chunk obtained from a source interval: the final remainder (the
unique interval ending at `len text`) is emitted untrimmed, every other
interval is trimmed of leading/trailing whitespace. -/
def renderIv (text : List Char) (iv : Nat × Nat) : List Char :=
  if iv.2 = text.length then text.drop iv.1
  else pyStrip (pySlice text iv.1 iv.2)

/-- Breakpoint selection as §4.1 of the spec describes it, parameterised by
the half-width `hw` of the search window around the candidate end offset
`cursor + char_size`: try a paragraph break, then a sentence break, then a
single line break inside the window; if none is found, hard-cut at the
candidate offset and rewind the cursor by `char_overlap` characters. -/
def windowBreakIv (text : List Char) (cs co hw start : Nat) : Nat × Nat :=
  match pyFind text ['\n', '\n'] (start + cs - hw) (start + cs + hw) with
  | some p => (p, p)
  | none =>
    match pyFind text ['.', ' '] (start + cs - hw) (start + cs + hw) with
    | some p => (p + 1, p + 1)
    | none =>
      match pyFind text ['\n'] (start + cs - hw) (start + cs + hw) with
      | some p => (p, p)
      | none => (start + cs, start + cs - co)

/-! ## Vector-store model (for the delete-then-upsert synchronization) -/

/-- The IDs upserted for a file whose content chunks into `n` pieces:
`{base_doc_id}-chunk-{1..n}` (lines 301-303). -/
def upsert_ids (p : List Char) (n : Nat) : List (List Char) :=
  (List.range n).map (fun i => docId (base_doc_id p) (i + 1))

/-- Effect of `delete_file_vectors` on the set of stored IDs: each delete
batch removes the listed IDs (absent IDs are ignored by the store). -/
def storeAfterDelete (store : List (List Char)) (p : List Char) : List (List Char) :=
  (batchesOf 100 (delete_ids p)).foldl
    (fun st batch => st.filter (fun id => !(batch.contains id))) store

/-- Stored IDs after a re-index pass of `index_file` for file `p` whose new
content has `n` chunks: the delete pass runs first, then the upserts (an
upsert of an existing ID overwrites it). -/
def storeAfterRun (store : List (List Char)) (p : List Char) (n : Nat) : List (List Char) :=
  (upsert_ids p n).foldl
    (fun st id => if st.contains id then st else st ++ [id])
    (storeAfterDelete store p)

/-! ## The per-file indexing pipeline (`index_file`, lines 263-352) -/

/-- Observable calls issued to the external collaborators. -/
inductive Event where
  | deleteBatch (ids : List (List Char))
  | embed (chunk : List Char)
  | upsert (ids : List (List Char))
deriving DecidableEq

/-- State threaded through the chunk loop of `index_file`:
`pending` is `vectors_to_upsert` (tracked by document ID), `ok` the
`success` flag, `calls` the number of upsert calls issued so far, and
`events` the trace of provider/store calls. -/
structure LoopState where
  pending : List (List Char)
  ok : Bool
  calls : Nat
  events : List Event

/-- The body of `for i, chunk in enumerate(chunks)` (lines 301-336):
embed the chunk (oracle `embedOk` indexed by chunk position); on failure set
`success = False` and continue; on success append the vector and, once 100
are pending, try an upsert (oracle `upsertOk` indexed by upsert call
number) — a failed upsert keeps the pending batch and sets `success = False`. -/
def processChunk (embedOk upsertOk : Nat → Bool) (base : List Char)
    (s : LoopState) (ic : Nat × List Char) : LoopState :=
  if embedOk ic.1 then
    if 100 ≤ (s.pending ++ [docId base (ic.1 + 1)]).length then
      if upsertOk s.calls then
        { pending := [], ok := s.ok, calls := s.calls + 1,
          events := s.events
            ++ [Event.embed ic.2, Event.upsert (s.pending ++ [docId base (ic.1 + 1)])] }
      else
        { pending := s.pending ++ [docId base (ic.1 + 1)], ok := false,
          calls := s.calls + 1,
          events := s.events
            ++ [Event.embed ic.2, Event.upsert (s.pending ++ [docId base (ic.1 + 1)])] }
    else
      { pending := s.pending ++ [docId base (ic.1 + 1)], ok := s.ok, calls := s.calls,
        events := s.events ++ [Event.embed ic.2] }
  else
    { pending := s.pending, ok := false, calls := s.calls,
      events := s.events ++ [Event.embed ic.2] }

/-- The whole chunk loop followed by the flush of the remaining vectors
(lines 338-345). -/
def chunkLoop (embedOk upsertOk : Nat → Bool) (base : List Char)
    (chunks : List (List Char)) : LoopState :=
  let s := chunks.enum.foldl (processChunk embedOk upsertOk base)
    ⟨[], true, 0, []⟩
  if s.pending = [] then s
  else if upsertOk s.calls then
    { s with calls := s.calls + 1, events := s.events ++ [Event.upsert s.pending] }
  else
    { s with
        ok := false, calls := s.calls + 1,
        events := s.events ++ [Event.upsert s.pending] }

/-- The hash ledger (`.file_hashes.json`): an association list from path to
content hash. -/
abbrev Ledger := List (List Char × List Char)

/-- Python dict assignment `file_hashes[file_path] = current_hash`. -/
def ledgerSet (k v : List Char) : Ledger → Ledger
  | [] => [(k, v)]
  | (a, b) :: t => if a = k then (k, v) :: t else (a, b) :: ledgerSet k v t

/-- Inputs of one `index_file` call: the path, the file's current content
hash, the decoded content (`read_file_content` yields `[]` when no encoding
can decode the file), and the outcome oracles for the embedding provider
and the store upserts. -/
structure FileJob where
  path : List Char
  hash : List Char
  content : List Char
  embedOk : Nat → Bool
  upsertOk : Nat → Bool

/-- Result of one `index_file` call: the call trace, the ledger after the
call, and the boolean the function returns. -/
structure IndexResult where
  events : List Event
  ledger : Ledger
  ok : Bool

/-- The delete calls issued by `delete_file_vectors` for a file, as trace
events (49 IDs, so a single batch of the batch-100 loop). -/
def fileDelEvents (j : FileJob) : List Event :=
  (batchesOf 100 (delete_ids j.path)).map Event.deleteBatch

/-- The embed/upsert loop of `index_file` applied to a file's chunks. -/
def fileLoop (j : FileJob) : LoopState :=
  chunkLoop j.embedOk j.upsertOk (base_doc_id j.path)
    (chunk_text j.content CHUNK_SIZE CHUNK_OVERLAP)

/-- `index_file` (lines 263-352): filter, hash-based skip, delete pass,
decode check, chunking, embed/upsert loop, and the ledger commit that
happens only when `success` survived the loop. -/
def index_file (ledger : Ledger) (j : FileJob) (force : Bool) : IndexResult :=
  if should_index_file j.path = false then ⟨[], ledger, false⟩
  else if force = false ∧ List.lookup j.path ledger = some j.hash then
    ⟨[], ledger, true⟩
  else if j.content = [] then ⟨fileDelEvents j, ledger, false⟩
  else if (fileLoop j).ok then
    ⟨fileDelEvents j ++ (fileLoop j).events, ledgerSet j.path j.hash ledger, true⟩
  else ⟨fileDelEvents j ++ (fileLoop j).events, ledger, false⟩

/-- One step of the `index_directory` walk: run `index_file` on the next
file against the threaded ledger and bump the success or failure counter. -/
def dirStep (force : Bool) (acc : Ledger × Nat × Nat) (j : FileJob) :
    Ledger × Nat × Nat :=
  if (index_file acc.1 j force).ok then
    ((index_file acc.1 j force).ledger, acc.2.1 + 1, acc.2.2)
  else ((index_file acc.1 j force).ledger, acc.2.1, acc.2.2 + 1)

/-- `index_directory` (lines 430-453): fold `index_file` over the walked
files, threading the persisted ledger and counting successes and failures. -/
def index_directory (ledger : Ledger) (jobs : List FileJob) (force : Bool) :
    Ledger × Nat × Nat :=
  jobs.foldl (dirStep force) (ledger, 0, 0)

/-- A concrete job used to instantiate theorems on explicit inputs: a small
`.ts` file whose provider and store always succeed. -/
def jobA : FileJob :=
  ⟨"a.ts".data, "h".data, "hi".data, fun _ => true, fun _ => true⟩

/-- As `jobA`, but the embedding provider fails on every chunk. -/
def jobFail : FileJob :=
  ⟨"a.ts".data, "h".data, "hi".data, fun _ => false, fun _ => true⟩

/-- As `jobA`, but the file content could not be decoded
(`read_file_content` returned the empty string). -/
def jobEmpty : FileJob :=
  ⟨"a.ts".data, "h".data, [], fun _ => true, fun _ => true⟩

/-- The embed payloads of a trace, in order. -/
def embedsOf (evs : List Event) : List (List Char) :=
  evs.filterMap (fun ev =>
    match ev with
    | Event.embed c => some c
    | _ => none)

/-- `id` occurs in some upsert batch of the trace. -/
def inUpsert (evs : List Event) (id : List Char) : Prop :=
  ∃ b, Event.upsert b ∈ evs ∧ id ∈ b

/-! ## Lemmas about the string primitives -/

theorem pyFind_bounds {s sub : List Char} {a b i : Nat}
    (h : pyFind s sub a b = some i) :
    a ≤ i ∧ i + sub.length ≤ min b s.length := by
  unfold pyFind at h
  by_cases hle : sub.length ≤ min b s.length
  · simp only [hle, if_pos] at h
    have hp := List.find?_some h
    have hm := List.mem_of_find?_eq_some h
    have hi : i < min b s.length - sub.length + 1 := List.mem_range.mp hm
    constructor
    · have := (Bool.and_eq_true _ _).mp hp
      exact of_decide_eq_true this.1
    · omega
  · simp [hle] at h

theorem length_dropWhile_le (p : Char → Bool) (l : List Char) :
    (l.dropWhile p).length ≤ l.length := by
  induction l with
  | nil => simp
  | cons a t ih =>
    by_cases h : p a
    · simp only [List.dropWhile_cons, h, if_pos]
      exact le_trans ih (by simp)
    · simp [List.dropWhile_cons, h]

theorem pyStrip_length_le (l : List Char) : (pyStrip l).length ≤ l.length := by
  unfold pyStrip
  calc ((l.dropWhile isPySpace).reverse.dropWhile isPySpace).reverse.length
      = ((l.dropWhile isPySpace).reverse.dropWhile isPySpace).length := by
        rw [List.length_reverse]
    _ ≤ (l.dropWhile isPySpace).reverse.length := length_dropWhile_le _ _
    _ = (l.dropWhile isPySpace).length := by rw [List.length_reverse]
    _ ≤ l.length := length_dropWhile_le _ _

theorem pySlice_length_le (l : List Char) (a b : Nat) :
    (pySlice l a b).length ≤ b - a := by
  unfold pySlice
  rw [List.length_drop, List.length_take]
  omega

/-! ## Lemmas about a single chunking step -/

/-- Bounds on one loop iteration of `chunk_text` in the non-final case:
with `(b, s') = chunkStepIv text cs co start`, the interval end `b` and new
cursor `s'` satisfy: the cursor strictly advances, stays inside the text,
never passes the interval end, and the interval is at most `cs + co` wide
and ends strictly inside the text. -/
theorem chunkStepIv_spec {text : List Char} {cs co start : Nat}
    (hcs : co < cs) (h : start + cs < text.length) :
    start < (chunkStepIv text cs co start).2 ∧
    (chunkStepIv text cs co start).2 < text.length ∧
    (chunkStepIv text cs co start).2 ≤ (chunkStepIv text cs co start).1 ∧
    start < (chunkStepIv text cs co start).1 ∧
    (chunkStepIv text cs co start).1 < text.length ∧
    (chunkStepIv text cs co start).1 ≤ start + cs + co := by
  rcases h1 : pyFind text ['\n', '\n'] (start + cs - co) (start + cs + co) with _ | p
  · rcases h2 : pyFind text ['.', ' '] (start + cs - co) (start + cs + co) with _ | p
    · rcases h3 : pyFind text ['\n'] (start + cs - co) (start + cs + co) with _ | p
      · have hst : chunkStepIv text cs co start = (start + cs, start + cs - co) := by
          unfold chunkStepIv; rw [h1, h2, h3]
        rw [hst]
        dsimp only
        omega
      · have hb := pyFind_bounds h3
        have hst : chunkStepIv text cs co start = (p, p) := by
          unfold chunkStepIv; rw [h1, h2, h3]
        rw [hst]
        simp only [List.length_cons, List.length_nil] at hb
        dsimp only
        omega
    · have hb := pyFind_bounds h2
      have hst : chunkStepIv text cs co start = (p + 1, p + 1) := by
        unfold chunkStepIv; rw [h1, h2]
      rw [hst]
      simp only [List.length_cons, List.length_nil] at hb
      dsimp only
      omega
  · have hb := pyFind_bounds h1
    have hst : chunkStepIv text cs co start = (p, p) := by
      unfold chunkStepIv; rw [h1]
    rw [hst]
    simp only [List.length_cons, List.length_nil] at hb
    dsimp only
    omega

/-- The emitted chunk of one non-final iteration is at most `cs + co`
characters long. -/
theorem chunkStep_length_le {text : List Char} {cs co start : Nat}
    (hcs : co < cs) (h : start + cs < text.length) :
    (chunkStep text cs co start).1.length ≤ cs + co := by
  have hiv := chunkStepIv_spec hcs h
  unfold chunkStep
  calc (pyStrip (pySlice text start (chunkStepIv text cs co start).1)).length
      ≤ (pySlice text start (chunkStepIv text cs co start).1).length :=
        pyStrip_length_le _
    _ ≤ (chunkStepIv text cs co start).1 - start := pySlice_length_le _ _ _
    _ ≤ cs + co := by omega

theorem getLast?_cons_ne {α : Type} (a : α) {l : List α} (h : l ≠ []) :
    (a :: l).getLast? = l.getLast? := by
  cases l with
  | nil => exact absurd rfl h
  | cons b t => exact List.getLast?_cons_cons

/-! ## The chunk-loop master lemma: termination, final remainder, bounds -/

theorem chunkAux_spec {text : List Char} {cs co : Nat} (hcs : co < cs) :
    ∀ fuel start, start < text.length → text.length - start ≤ fuel →
    ∃ l, chunkAux text cs co fuel start = some l ∧ l ≠ [] ∧
      (∃ s2, text.length ≤ s2 + cs ∧ l.getLast? = some (text.drop s2)) ∧
      (∀ c ∈ l, c.length ≤ cs + co) := by
  intro fuel
  induction fuel with
  | zero => intro start h1 h2; omega
  | succ fuel ih =>
    intro start h1 h2
    by_cases hle : text.length ≤ start + cs
    · refine ⟨[text.drop start], ?_, by simp, ⟨start, hle, by simp⟩, ?_⟩
      · simp [chunkAux, h1, hle]
      · intro c hc
        simp only [List.mem_singleton] at hc
        subst hc
        rw [List.length_drop]
        omega
    · have hlt : start + cs < text.length := by omega
      have hiv := chunkStepIv_spec hcs hlt
      obtain ⟨l', heq', hne', ⟨s2, hs2, hlast'⟩, hbound'⟩ :=
        ih (chunkStep text cs co start).2 (by unfold chunkStep; dsimp only; omega)
          (by unfold chunkStep; dsimp only; omega)
      refine ⟨(chunkStep text cs co start).1 :: l', ?_, by simp, ⟨s2, hs2, ?_⟩, ?_⟩
      · simp [chunkAux, h1, hle, heq']
      · rw [getLast?_cons_ne _ hne']
        exact hlast'
      · intro c hc
        rcases List.mem_cons.mp hc with hc | hc
        · subst hc
          exact chunkStep_length_le hcs hlt
        · exact hbound' c hc

/-! ## The interval master lemma: first, chaining, last, coverage -/

theorem chunkIntervalsAux_spec {text : List Char} {cs co : Nat} (hcs : co < cs) :
    ∀ fuel start, start < text.length → text.length - start ≤ fuel →
    (∃ b0, (chunkIntervalsAux text cs co fuel start).head? = some (start, b0)) ∧
    List.Chain' (fun a b => b.1 ≤ a.2) (chunkIntervalsAux text cs co fuel start) ∧
    (∃ al, (chunkIntervalsAux text cs co fuel start).getLast? = some al ∧
      al.2 = text.length) ∧
    (∀ k, start ≤ k → k < text.length →
      ∃ iv ∈ chunkIntervalsAux text cs co fuel start, iv.1 ≤ k ∧ k < iv.2) := by
  intro fuel
  induction fuel with
  | zero => intro start h1 h2; omega
  | succ fuel ih =>
    intro start h1 h2
    by_cases hle : text.length ≤ start + cs
    · have hres : chunkIntervalsAux text cs co (fuel + 1) start = [(start, text.length)] := by
        simp [chunkIntervalsAux, h1, hle]
      rw [hres]
      refine ⟨⟨text.length, by simp⟩, by simp, ⟨(start, text.length), by simp, rfl⟩, ?_⟩
      intro k hk1 hk2
      exact ⟨(start, text.length), by simp, hk1, hk2⟩
    · have hlt : start + cs < text.length := by omega
      have hiv := chunkStepIv_spec hcs hlt
      obtain ⟨⟨b0, hhead'⟩, hchain', ⟨al, hlast', hal⟩, hcov'⟩ :=
        ih (chunkStepIv text cs co start).2 (by omega) (by omega)
      have hres : chunkIntervalsAux text cs co (fuel + 1) start =
          (start, (chunkStepIv text cs co start).1)
            :: chunkIntervalsAux text cs co fuel (chunkStepIv text cs co start).2 := by
        simp [chunkIntervalsAux, h1, hle]
      rw [hres]
      have hne' : chunkIntervalsAux text cs co fuel (chunkStepIv text cs co start).2 ≠ [] := by
        intro hnil
        rw [hnil] at hhead'
        simp at hhead'
      refine ⟨⟨(chunkStepIv text cs co start).1, by simp⟩, ?_, ⟨al, ?_, hal⟩, ?_⟩
      · rw [List.chain'_cons']
        refine ⟨?_, hchain'⟩
        intro y hy
        rw [hhead'] at hy
        simp only [Option.mem_def, Option.some_inj] at hy
        subst hy
        dsimp only
        omega
      · rw [getLast?_cons_ne _ hne']
        exact hlast'
      · intro k hk1 hk2
        by_cases hkb : k < (chunkStepIv text cs co start).1
        · exact ⟨(start, (chunkStepIv text cs co start).1), by simp, hk1, hkb⟩
        · obtain ⟨iv, hiv1, hiv2⟩ := hcov' k (by omega) hk2
          exact ⟨iv, List.mem_cons_of_mem _ hiv1, hiv2⟩

/-- The chunks of `chunkAux` are exactly the rendered source intervals of
`chunkIntervalsAux`: trimmed slices, except the final remainder which is
emitted untrimmed. -/
theorem chunkAux_renders {text : List Char} {cs co : Nat} (hcs : co < cs) :
    ∀ fuel start, start < text.length → text.length - start ≤ fuel →
    chunkAux text cs co fuel start =
      some ((chunkIntervalsAux text cs co fuel start).map (renderIv text)) := by
  intro fuel
  induction fuel with
  | zero => intro start h1 h2; omega
  | succ fuel ih =>
    intro start h1 h2
    by_cases hle : text.length ≤ start + cs
    · have hr : renderIv text (start, text.length) = text.drop start := by
        simp [renderIv]
      simp [chunkAux, chunkIntervalsAux, h1, hle, hr]
    · have hlt : start + cs < text.length := by omega
      have hiv := chunkStepIv_spec hcs hlt
      have hrec := ih (chunkStepIv text cs co start).2 (by omega) (by omega)
      have hr : renderIv text (start, (chunkStepIv text cs co start).1)
          = (chunkStep text cs co start).1 := by
        unfold renderIv chunkStep
        dsimp only
        rw [if_neg (by omega)]
      have hs2 : (chunkStep text cs co start).2 = (chunkStepIv text cs co start).2 := rfl
      simp [chunkAux, chunkIntervalsAux, h1, hle, hs2, hrec, hr]

/-! ## Lemmas about the embed/upsert loop -/

theorem processChunk_calls (e u : Nat → Bool) (base : List Char)
    (s : LoopState) (ic : Nat × List Char) :
    s.calls ≤ (processChunk e u base s ic).calls ∧
    (processChunk e u base s ic).calls ≤ s.calls + 1 := by
  unfold processChunk
  split
  · split
    · split
      · dsimp only
        omega
      · dsimp only
        omega
    · dsimp only
      omega
  · dsimp only
    omega

theorem foldl_processChunk_calls (e u : Nat → Bool) (base : List Char) :
    ∀ (l : List (Nat × List Char)) (s : LoopState),
    s.calls ≤ (l.foldl (processChunk e u base) s).calls := by
  intro l
  induction l with
  | nil => intro s; exact le_refl _
  | cons a t ih =>
    intro s
    exact le_trans (processChunk_calls e u base s a).1 (ih _)

theorem processChunk_ok_iff (e u : Nat → Bool) (base : List Char)
    (s : LoopState) (ic : Nat × List Char) :
    ((processChunk e u base s ic).ok = true ↔
      (s.ok = true ∧ e ic.1 = true ∧
        ∀ j, s.calls ≤ j → j < (processChunk e u base s ic).calls → u j = true)) := by
  unfold processChunk
  split
  next he =>
    split
    next h100 =>
      split
      next hu =>
        dsimp only
        constructor
        · intro hok
          refine ⟨hok, he, ?_⟩
          intro j hj1 hj2
          have : j = s.calls := by omega
          subst this
          exact hu
        · rintro ⟨hok, -, -⟩
          exact hok
      next hu =>
        dsimp only
        constructor
        · intro hok
          exact absurd hok (by simp)
        · rintro ⟨-, -, hall⟩
          have := hall s.calls (le_refl _) (by omega)
          exact absurd this hu
    next h100 =>
      dsimp only
      constructor
      · intro hok
        exact ⟨hok, he, fun j hj1 hj2 => by omega⟩
      · rintro ⟨hok, -, -⟩
        exact hok
  next he =>
    dsimp only
    constructor
    · intro hok
      exact absurd hok (by simp)
    · rintro ⟨-, he2, -⟩
      exact absurd he2 he

theorem foldl_processChunk_ok (e u : Nat → Bool) (base : List Char) :
    ∀ (l : List (List Char)) (n : Nat) (s : LoopState),
    (((List.enumFrom n l).foldl (processChunk e u base) s).ok = true ↔
      (s.ok = true ∧ (∀ k, k < l.length → e (n + k) = true) ∧
        (∀ j, s.calls ≤ j →
          j < ((List.enumFrom n l).foldl (processChunk e u base) s).calls →
          u j = true))) := by
  intro l
  induction l with
  | nil =>
    intro n s
    have hF : (List.enumFrom n ([] : List (List Char))).foldl
        (processChunk e u base) s = s := rfl
    rw [hF]
    constructor
    · intro hok
      exact ⟨hok, fun k hk => by simp at hk, fun j hj1 hj2 => by omega⟩
    · rintro ⟨hok, -, -⟩
      exact hok
  | cons a t ih =>
    intro n s
    have hrw : (List.enumFrom n (a :: t)).foldl (processChunk e u base) s =
        (List.enumFrom (n + 1) t).foldl (processChunk e u base)
          (processChunk e u base s (n, a)) := rfl
    rw [hrw]
    have hc1 := (processChunk_calls e u base s (n, a)).1
    have hc2 := foldl_processChunk_calls e u base (List.enumFrom (n + 1) t)
      (processChunk e u base s (n, a))
    rw [ih (n + 1) (processChunk e u base s (n, a))]
    rw [processChunk_ok_iff]
    constructor
    · rintro ⟨⟨hok, hen, hu1⟩, het, hut⟩
      refine ⟨hok, ?_, ?_⟩
      · intro k hk
        match k with
        | 0 => simpa using hen
        | k + 1 =>
          have hnk : n + (k + 1) = n + 1 + k := by omega
          rw [hnk]
          exact het k (by simp at hk; omega)
      · intro j hj1 hj2
        by_cases hj3 : j < (processChunk e u base s (n, a)).calls
        · exact hu1 j hj1 hj3
        · exact hut j (by omega) hj2
    · rintro ⟨hok, het, hut⟩
      refine ⟨⟨hok, by simpa using het 0 (by simp), ?_⟩, ?_, ?_⟩
      · intro j hj1 hj2
        exact hut j hj1 (by omega)
      · intro k hk
        have hnk : n + 1 + k = n + (k + 1) := by omega
        rw [hnk]
        exact het (k + 1) (by simp; omega)
      · intro j hj1 hj2
        exact hut j (by omega) hj2

/-- The `success` flag survives the whole loop (including the final flush)
exactly when every chunk embedded and every issued upsert succeeded. -/
theorem chunkLoop_ok_iff (e u : Nat → Bool) (base : List Char)
    (chunks : List (List Char)) :
    ((chunkLoop e u base chunks).ok = true ↔
      ((∀ k, k < chunks.length → e k = true) ∧
        (∀ j, j < (chunkLoop e u base chunks).calls → u j = true))) := by
  unfold chunkLoop
  simp only [List.enum]
  set s := (List.enumFrom 0 chunks).foldl (processChunk e u base)
    (⟨[], true, 0, []⟩ : LoopState) with hs
  have hfold2 : (s.ok = true ↔
      ((∀ k, k < chunks.length → e k = true) ∧ (∀ j, j < s.calls → u j = true))) := by
    rw [hs, foldl_processChunk_ok e u base chunks 0 ⟨[], true, 0, []⟩]
    constructor
    · rintro ⟨-, het, hut⟩
      exact ⟨fun k hk => by simpa using het k hk, fun j hj => hut j (Nat.zero_le _) hj⟩
    · rintro ⟨het, hut⟩
      exact ⟨rfl, fun k hk => by simpa using het k hk, fun j hj1 hj2 => hut j hj2⟩
  by_cases hp : s.pending = []
  · rw [if_pos hp]
    exact hfold2
  · rw [if_neg hp]
    by_cases hu : u s.calls = true
    · rw [if_pos hu]
      dsimp only
      rw [hfold2]
      constructor
      · rintro ⟨het, hut⟩
        refine ⟨het, ?_⟩
        intro j hj
        by_cases hj2 : j < s.calls
        · exact hut j hj2
        · have hje : j = s.calls := by omega
          rw [hje]
          exact hu
      · rintro ⟨het, hut⟩
        exact ⟨het, fun j hj => hut j (by omega)⟩
    · rw [if_neg hu]
      dsimp only
      constructor
      · intro h
        exact absurd h (by simp)
      · rintro ⟨-, hut⟩
        exact absurd (hut s.calls (by omega)) hu

/-! ## Trace lemmas: every chunk is embedded, successful chunks are upserted -/

theorem embedsOf_append (a b : List Event) :
    embedsOf (a ++ b) = embedsOf a ++ embedsOf b := by
  unfold embedsOf
  exact List.filterMap_append _ _ _

theorem processChunk_embeds (e u : Nat → Bool) (base : List Char)
    (s : LoopState) (ic : Nat × List Char) :
    embedsOf (processChunk e u base s ic).events = embedsOf s.events ++ [ic.2] := by
  unfold processChunk
  split
  · split
    · split
      · dsimp only
        rw [embedsOf_append]
        rfl
      · dsimp only
        rw [embedsOf_append]
        rfl
    · dsimp only
      rw [embedsOf_append]
      rfl
  · dsimp only
    rw [embedsOf_append]
    rfl

theorem foldl_processChunk_embeds (e u : Nat → Bool) (base : List Char) :
    ∀ (l : List (List Char)) (n : Nat) (s : LoopState),
    embedsOf ((List.enumFrom n l).foldl (processChunk e u base) s).events
      = embedsOf s.events ++ l := by
  intro l
  induction l with
  | nil =>
    intro n s
    simp
  | cons a t ih =>
    intro n s
    have hrw : (List.enumFrom n (a :: t)).foldl (processChunk e u base) s =
        (List.enumFrom (n + 1) t).foldl (processChunk e u base)
          (processChunk e u base s (n, a)) := rfl
    rw [hrw, ih (n + 1), processChunk_embeds]
    simp

/-- Every chunk of the file is submitted to the embedding provider, in
order, whatever the oracles answer. -/
theorem chunkLoop_embeds (e u : Nat → Bool) (base : List Char)
    (chunks : List (List Char)) :
    embedsOf (chunkLoop e u base chunks).events = chunks := by
  unfold chunkLoop
  simp only [List.enum]
  have hfold := foldl_processChunk_embeds e u base chunks 0 ⟨[], true, 0, []⟩
  split
  · rw [hfold]
    rfl
  · split
    · dsimp only
      rw [embedsOf_append, hfold]
      simp [embedsOf]
    · dsimp only
      rw [embedsOf_append, hfold]
      simp [embedsOf]

theorem inUpsert_append_left {evs : List Event} (evs' : List Event)
    {id : List Char} (h : inUpsert evs id) : inUpsert (evs ++ evs') id := by
  obtain ⟨b, hb, hm⟩ := h
  exact ⟨b, List.mem_append_left _ hb, hm⟩

theorem inUpsert_append_right {evs' : List Event} (evs : List Event)
    {id : List Char} (h : inUpsert evs' id) : inUpsert (evs ++ evs') id := by
  obtain ⟨b, hb, hm⟩ := h
  exact ⟨b, List.mem_append_right _ hb, hm⟩

/-- An ID that is pending or already upserted stays pending-or-upserted
through one loop iteration. -/
theorem processChunk_keeps (e u : Nat → Bool) (base : List Char)
    (s : LoopState) (ic : Nat × List Char) (id : List Char)
    (h : id ∈ s.pending ∨ inUpsert s.events id) :
    id ∈ (processChunk e u base s ic).pending ∨
      inUpsert (processChunk e u base s ic).events id := by
  unfold processChunk
  split
  · split
    · split
      · dsimp only
        rcases h with h | h
        · refine Or.inr ⟨s.pending ++ [docId base (ic.1 + 1)], ?_, ?_⟩
          · simp
          · exact List.mem_append_left _ h
        · exact Or.inr (inUpsert_append_left _ h)
      · dsimp only
        rcases h with h | h
        · exact Or.inl (List.mem_append_left _ h)
        · exact Or.inr (inUpsert_append_left _ h)
    · dsimp only
      rcases h with h | h
      · exact Or.inl (List.mem_append_left _ h)
      · exact Or.inr (inUpsert_append_left _ h)
  · dsimp only
    rcases h with h | h
    · exact Or.inl h
    · exact Or.inr (inUpsert_append_left _ h)

theorem foldl_processChunk_keeps (e u : Nat → Bool) (base : List Char) :
    ∀ (l : List (Nat × List Char)) (s : LoopState) (id : List Char),
    (id ∈ s.pending ∨ inUpsert s.events id) →
    (id ∈ (l.foldl (processChunk e u base) s).pending ∨
      inUpsert ((l.foldl (processChunk e u base) s).events) id) := by
  intro l
  induction l with
  | nil => intro s id h; exact h
  | cons a t ih =>
    intro s id h
    exact ih (processChunk e u base s a) id (processChunk_keeps e u base s a id h)

/-- A successfully embedded chunk's document ID ends up pending or in an
issued upsert batch. -/
theorem processChunk_adds (e u : Nat → Bool) (base : List Char)
    (s : LoopState) (ic : Nat × List Char) (he : e ic.1 = true) :
    docId base (ic.1 + 1) ∈ (processChunk e u base s ic).pending ∨
      inUpsert (processChunk e u base s ic).events (docId base (ic.1 + 1)) := by
  unfold processChunk
  rw [if_pos he]
  split
  · split
    · dsimp only
      refine Or.inr ⟨s.pending ++ [docId base (ic.1 + 1)], by simp, by simp⟩
    · dsimp only
      exact Or.inl (by simp)
  · dsimp only
    exact Or.inl (by simp)

theorem foldl_processChunk_ids (e u : Nat → Bool) (base : List Char) :
    ∀ (l : List (List Char)) (n : Nat) (s : LoopState) (k : Nat),
    k < l.length → e (n + k) = true →
    (docId base (n + k + 1)
        ∈ ((List.enumFrom n l).foldl (processChunk e u base) s).pending ∨
      inUpsert ((List.enumFrom n l).foldl (processChunk e u base) s).events
        (docId base (n + k + 1))) := by
  intro l
  induction l with
  | nil => intro n s k hk; simp at hk
  | cons a t ih =>
    intro n s k hk he
    have hrw : (List.enumFrom n (a :: t)).foldl (processChunk e u base) s =
        (List.enumFrom (n + 1) t).foldl (processChunk e u base)
          (processChunk e u base s (n, a)) := rfl
    rw [hrw]
    match k with
    | 0 =>
      refine foldl_processChunk_keeps e u base _ _ _ ?_
      have h0 : n + 0 = n := by omega
      rw [h0] at he ⊢
      exact processChunk_adds e u base s (n, a) he
    | k + 1 =>
      have hnk : n + (k + 1) = (n + 1) + k := by omega
      rw [hnk] at he ⊢
      exact ih (n + 1) (processChunk e u base s (n, a)) k (by simp at hk; omega) he

/-- After the final flush, every successfully embedded chunk's ID has
appeared in some upsert batch. -/
theorem chunkLoop_upserts (e u : Nat → Bool) (base : List Char)
    (chunks : List (List Char)) (k : Nat)
    (hk : k < chunks.length) (he : e k = true) :
    inUpsert (chunkLoop e u base chunks).events (docId base (k + 1)) := by
  unfold chunkLoop
  simp only [List.enum]
  have hids := foldl_processChunk_ids e u base chunks 0 ⟨[], true, 0, []⟩ k hk
    (by simpa using he)
  simp only [Nat.zero_add] at hids
  set s := (List.enumFrom 0 chunks).foldl (processChunk e u base)
    (⟨[], true, 0, []⟩ : LoopState) with hs
  rcases hids with hpend | hup
  · have hne : s.pending ≠ [] := by
      intro hnil
      rw [hnil] at hpend
      simp at hpend
    rw [if_neg hne]
    split
    · dsimp only
      exact inUpsert_append_right _ ⟨s.pending, by simp, hpend⟩
    · dsimp only
      exact inUpsert_append_right _ ⟨s.pending, by simp, hpend⟩
  · split
    · exact hup
    · split
      · dsimp only
        exact inUpsert_append_left _ hup
      · dsimp only
        exact inUpsert_append_left _ hup

/-! ## Unfolding lemmas for `index_file` and `index_directory` -/

theorem index_file_run (ledger : Ledger) (j : FileJob) (force : Bool)
    (h1 : should_index_file j.path = true)
    (h2 : force = true ∨ List.lookup j.path ledger ≠ some j.hash)
    (h3 : j.content ≠ []) :
    index_file ledger j force =
      (if (fileLoop j).ok then
        (⟨fileDelEvents j ++ (fileLoop j).events,
          ledgerSet j.path j.hash ledger, true⟩ : IndexResult)
      else ⟨fileDelEvents j ++ (fileLoop j).events, ledger, false⟩) := by
  unfold index_file
  rw [if_neg (by rw [h1]; simp)]
  rw [if_neg (by
    rintro ⟨hf, hl⟩
    rcases h2 with h2 | h2
    · rw [h2] at hf
      exact absurd hf (by simp)
    · exact h2 hl)]
  rw [if_neg h3]

theorem index_file_decode_fail (ledger : Ledger) (j : FileJob) (force : Bool)
    (h1 : should_index_file j.path = true)
    (h2 : force = true ∨ List.lookup j.path ledger ≠ some j.hash)
    (h3 : j.content = []) :
    index_file ledger j force = ⟨fileDelEvents j, ledger, false⟩ := by
  unfold index_file
  rw [if_neg (by rw [h1]; simp)]
  rw [if_neg (by
    rintro ⟨hf, hl⟩
    rcases h2 with h2 | h2
    · rw [h2] at hf
      exact absurd hf (by simp)
    · exact h2 hl)]
  rw [if_pos h3]

theorem foldl_dirStep_counts (force : Bool) :
    ∀ (jobs : List FileJob) (acc : Ledger × Nat × Nat),
    (jobs.foldl (dirStep force) acc).2.1 + (jobs.foldl (dirStep force) acc).2.2
      = acc.2.1 + acc.2.2 + jobs.length := by
  intro jobs
  induction jobs with
  | nil => intro acc; simp
  | cons a t ih =>
    intro acc
    have hrw : ((a :: t).foldl (dirStep force) acc)
        = t.foldl (dirStep force) (dirStep force acc a) := rfl
    rw [hrw, ih (dirStep force acc a)]
    have hstep : (dirStep force acc a).2.1 + (dirStep force acc a).2.2
        = acc.2.1 + acc.2.2 + 1 := by
      unfold dirStep
      split
      · dsimp only
        omega
      · dsimp only
        omega
    simp only [List.length_cons]
    omega

theorem embedsOf_delete_batches (l : List (List (List Char))) :
    embedsOf (l.map Event.deleteBatch) = [] := by
  induction l with
  | nil => rfl
  | cons a t ih =>
    show embedsOf (Event.deleteBatch a :: t.map Event.deleteBatch) = []
    unfold embedsOf at ih ⊢
    rw [List.filterMap_cons]
    exact ih

/-! ## Claim theorems -/

/-- C4: for every text and every parameter pair with `0 < overlap <
chunk_size`, `chunk_text` terminates: the fuel `len(text) + 1` is enough for
the loop (the cursor strictly advances on every iteration), and the final
partial remainder — the suffix of the text from the last cursor — is emitted
as the last chunk even when it is shorter than `chunk_size`. -/
theorem C4_chunk_text_terminates (text : List Char) (size ov : Nat)
    (h1 : 0 < ov) (h2 : ov < size) :
    (chunk_textOpt text size ov).isSome = true ∧
    (∀ start, start + 4 * size < text.length →
      start < (chunkStepIv text (4 * size) (4 * ov) start).2) ∧
    (∃ s2, (chunk_text text size ov).getLast? = some (text.drop s2) ∧
      text.length ≤ s2 + 4 * size) := by
  have hco : 4 * ov < 4 * size := by omega
  by_cases hlen : text.length ≤ 4 * size
  · refine ⟨?_, ?_, ⟨0, ?_, by omega⟩⟩
    · unfold chunk_textOpt
      rw [if_pos hlen]
      rfl
    · intro start hstart
      omega
    · unfold chunk_text chunk_textOpt
      rw [if_pos hlen]
      simp
  · have hlt : 0 < text.length := by omega
    obtain ⟨l, heq, hne, ⟨s2, hs2, hlast⟩, hbound⟩ :=
      chunkAux_spec hco (text.length + 1) 0 hlt (by omega)
    have hopt : chunk_textOpt text size ov = some l := by
      unfold chunk_textOpt
      rw [if_neg hlen]
      exact heq
    refine ⟨by rw [hopt]; rfl, ?_, ⟨s2, ?_, hs2⟩⟩
    · intro start hstart
      exact (chunkStepIv_spec hco hstart).1
    · unfold chunk_text
      rw [hopt]
      exact hlast

/-- C4 witness: the hypotheses hold at `text = 'a' * 12`, `chunk_size = 2`,
`overlap = 1`, and the theorem applies. -/
theorem C4_witness :
    (0 < 1 ∧ 1 < 2) ∧
    ((chunk_textOpt (List.replicate 12 'a') 2 1).isSome = true ∧
      (∀ start, start + 4 * 2 < (List.replicate 12 'a').length →
        start < (chunkStepIv (List.replicate 12 'a') (4 * 2) (4 * 1) start).2) ∧
      (∃ s2, (chunk_text (List.replicate 12 'a') 2 1).getLast?
          = some ((List.replicate 12 'a').drop s2) ∧
        (List.replicate 12 'a').length ≤ s2 + 4 * 2)) :=
  ⟨⟨by decide, by decide⟩,
    C4_chunk_text_terminates (List.replicate 12 'a') 2 1 (by decide) (by decide)⟩

/-- C5 counterexample: the claim reads the breakpoint search as a window of
width `overlap` centered on the candidate offset (`overlap / 2` characters
on each side, here `4 / 2 = 2` for `char_overlap = 4`).  At
`text = "abcdefghij\n\nmn"`, `char_size = 8`, `char_overlap = 4` the code
finds the paragraph break at offset 10 (inside its actual `± overlap`
window) and advances there, whereas a width-`overlap` centered window sees
no break and would hard-cut at 8 and rewind to 4. -/
theorem C5_counterexample :
    chunkStepIv ("abcdefghij\n\nmn".data) 8 4 0 = (10, 10) ∧
    windowBreakIv ("abcdefghij\n\nmn".data) 8 4 2 0 = (8, 4) ∧
    ¬ (chunkStepIv ("abcdefghij\n\nmn".data) 8 4 0
        = windowBreakIv ("abcdefghij\n\nmn".data) 8 4 2 0) := by
  decide

/-- C5 (amended): at each chunking step the breakpoint search examines the
window extending `overlap` characters on each side of the candidate end
offset `cursor + char_size` (total width `2 * overlap`), trying in priority
order a paragraph break, then a sentence break, then a single line break;
when none is found the chunker hard-cuts at the candidate offset and rewinds
the cursor by `overlap`, and when a break is found the cursor advances to
the breakpoint; the emitted chunk is the trimmed slice up to the interval
end. -/
theorem C5_window_break (text : List Char) (cs co start : Nat) :
    chunkStepIv text cs co start = windowBreakIv text cs co co start ∧
    chunkStep text cs co start =
      (pyStrip (pySlice text start (windowBreakIv text cs co co start).1),
        (windowBreakIv text cs co co start).2) :=
  ⟨rfl, rfl⟩

/-- C6: the source intervals of `chunk_text` (before whitespace trimming)
cover `[0, len text)` with no gaps: the first interval starts at 0, every
interval begins at or before the previous one ends, the last interval ends
at `len text`, every position of the text lies in some interval, and the
chunks of `chunk_text` are exactly the rendered intervals. -/
theorem C6_intervals_cover (text : List Char) (size ov : Nat)
    (h1 : 0 < ov) (h2 : ov < size) :
    (∃ b0, (chunk_intervals text size ov).head? = some (0, b0)) ∧
    List.Chain' (fun a b => b.1 ≤ a.2) (chunk_intervals text size ov) ∧
    (∃ al, (chunk_intervals text size ov).getLast? = some al ∧
      al.2 = text.length) ∧
    (∀ k, k < text.length →
      ∃ iv ∈ chunk_intervals text size ov, iv.1 ≤ k ∧ k < iv.2) ∧
    chunk_text text size ov = (chunk_intervals text size ov).map (renderIv text) := by
  have hco : 4 * ov < 4 * size := by omega
  by_cases hlen : text.length ≤ 4 * size
  · have hint : chunk_intervals text size ov = [(0, text.length)] := by
      unfold chunk_intervals
      rw [if_pos hlen]
    rw [hint]
    refine ⟨⟨text.length, rfl⟩, by simp, ⟨(0, text.length), rfl, rfl⟩, ?_, ?_⟩
    · intro k hk
      exact ⟨(0, text.length), by simp, by omega, hk⟩
    · unfold chunk_text chunk_textOpt
      rw [if_pos hlen]
      show [text] = [renderIv text (0, text.length)]
      unfold renderIv
      dsimp only
      rw [if_pos rfl, List.drop_zero]
  · have hlt : 0 < text.length := by omega
    have hint : chunk_intervals text size ov
        = chunkIntervalsAux text (4 * size) (4 * ov) (text.length + 1) 0 := by
      unfold chunk_intervals
      rw [if_neg hlen]
    obtain ⟨⟨b0, hh⟩, hchain, ⟨al, hl1, hl2⟩, hcov⟩ :=
      chunkIntervalsAux_spec hco (text.length + 1) 0 hlt (by omega)
    have hrender := chunkAux_renders hco (text.length + 1) 0 hlt (by omega)
    refine ⟨⟨b0, by rw [hint]; exact hh⟩, by rw [hint]; exact hchain,
      ⟨al, by rw [hint]; exact hl1, hl2⟩, ?_, ?_⟩
    · intro k hk
      obtain ⟨iv, hiv1, hiv2⟩ := hcov k (Nat.zero_le _) hk
      exact ⟨iv, by rw [hint]; exact hiv1, hiv2⟩
    · unfold chunk_text chunk_textOpt
      rw [if_neg hlen, hint, hrender]
      rfl

/-- C6 witness: the hypotheses hold at `text = 'a' * 12`, `chunk_size = 2`,
`overlap = 1`, and the theorem applies. -/
theorem C6_witness :
    (0 < 1 ∧ 1 < 2) ∧
    ((∃ b0, (chunk_intervals (List.replicate 12 'a') 2 1).head? = some (0, b0)) ∧
      List.Chain' (fun a b => b.1 ≤ a.2) (chunk_intervals (List.replicate 12 'a') 2 1) ∧
      (∃ al, (chunk_intervals (List.replicate 12 'a') 2 1).getLast? = some al ∧
        al.2 = (List.replicate 12 'a').length) ∧
      (∀ k, k < (List.replicate 12 'a').length →
        ∃ iv ∈ chunk_intervals (List.replicate 12 'a') 2 1, iv.1 ≤ k ∧ k < iv.2) ∧
      chunk_text (List.replicate 12 'a') 2 1
        = (chunk_intervals (List.replicate 12 'a') 2 1).map
            (renderIv (List.replicate 12 'a'))) :=
  ⟨⟨by decide, by decide⟩,
    C6_intervals_cover (List.replicate 12 'a') 2 1 (by decide) (by decide)⟩

/-- C9: a text of length at most `4 * chunk_size` characters (the 1 token ≈
4 characters convention) is returned as the single chunk `[text]`, unchanged
— no truncation and no trimming — and the corresponding document ID carries
the suffix `-chunk-1`. -/
theorem C9_short_text_single_chunk (text : List Char) (size ov : Nat)
    (h : text.length ≤ 4 * size) :
    chunk_text text size ov = [text] ∧
    (∀ base : List Char, docId base 1 = base ++ "-chunk-1".data) := by
  constructor
  · unfold chunk_text chunk_textOpt
    rw [if_pos h]
    rfl
  · intro base
    unfold docId
    have hd : "-chunk-".data ++ Nat.toDigits 10 1 = "-chunk-1".data := by decide
    rw [List.append_assoc, hd]

/-- C9 witness: a 50-character text with `chunk_size = 500` (2000
characters) yields the single chunk `[text]`. -/
theorem C9_witness :
    (List.replicate 50 'x').length ≤ 4 * 500 ∧
    (chunk_text (List.replicate 50 'x') 500 100 = [List.replicate 50 'x'] ∧
      (∀ base : List Char, docId base 1 = base ++ "-chunk-1".data)) :=
  ⟨by decide, C9_short_text_single_chunk (List.replicate 50 'x') 500 100 (by decide)⟩

/-- C10 counterexample: the final remainder need not be strictly shorter
than `4 * chunk_size` characters: for `text = 'a' * 12`, `chunk_size = 2`,
`overlap = 1` the loop hard-cuts at 8, rewinds to 4, and the remainder
`text[4:]` has length exactly `8 = 4 * 2`. -/
theorem C10_counterexample :
    (chunk_text (List.replicate 12 'a') 2 1).getLast? = some (List.replicate 8 'a') ∧
    ¬ ((List.replicate 8 'a').length < 4 * 2) := by
  decide

/-- C10 (amended): for `0 < overlap < chunk_size`, every chunk returned by
`chunk_text` is at most `4 * (chunk_size + overlap)` characters long, and
the final remainder (the last chunk, a suffix of the text) is at most
`4 * chunk_size` characters long (equality is attainable). -/
theorem C10_chunk_length_bound (text : List Char) (size ov : Nat)
    (h1 : 0 < ov) (h2 : ov < size) :
    (∀ c ∈ chunk_text text size ov, c.length ≤ 4 * (size + ov)) ∧
    (∃ s2, (chunk_text text size ov).getLast? = some (text.drop s2) ∧
      (text.drop s2).length ≤ 4 * size) := by
  have hco : 4 * ov < 4 * size := by omega
  by_cases hlen : text.length ≤ 4 * size
  · have hct : chunk_text text size ov = [text] := by
      unfold chunk_text chunk_textOpt
      rw [if_pos hlen]
      rfl
    rw [hct]
    refine ⟨?_, ⟨0, by simp, by simp; omega⟩⟩
    intro c hc
    simp only [List.mem_singleton] at hc
    subst hc
    omega
  · have hlt : 0 < text.length := by omega
    obtain ⟨l, heq, hne, ⟨s2, hs2, hlast⟩, hbound⟩ :=
      chunkAux_spec hco (text.length + 1) 0 hlt (by omega)
    have hct : chunk_text text size ov = l := by
      unfold chunk_text chunk_textOpt
      rw [if_neg hlen, heq]
      rfl
    rw [hct]
    refine ⟨?_, ⟨s2, hlast, ?_⟩⟩
    · intro c hc
      have := hbound c hc
      omega
    · rw [List.length_drop]
      omega

/-- C10 witness (for the amended claim): the hypotheses hold at
`text = 'a' * 12`, `chunk_size = 2`, `overlap = 1`. -/
theorem C10_witness :
    (0 < 1 ∧ 1 < 2) ∧
    ((∀ c ∈ chunk_text (List.replicate 12 'a') 2 1, c.length ≤ 4 * (2 + 1)) ∧
      (∃ s2, (chunk_text (List.replicate 12 'a') 2 1).getLast?
          = some ((List.replicate 12 'a').drop s2) ∧
        ((List.replicate 12 'a').drop s2).length ≤ 4 * 2)) :=
  ⟨⟨by decide, by decide⟩,
    C10_chunk_length_bound (List.replicate 12 'a') 2 1 (by decide) (by decide)⟩

/-- C1 (code evaluated at the failing input): re-indexing the previously
indexed file `.../utils/helpers.ts` does not leave exactly the freshly
upserted ID set in the store.  `delete_file_vectors` classifies the file as
`unknown` (its file-type chain only handles `components` and `hooks`) while
`create_metadata` classifies it as `context`, so the delete pass targets a
different ID prefix than the upserts: shrinking the file from 2 chunks to 1
leaves the stale `...-chunk-2` vector in the store, which is not in
`{prefix-chunk-1}`. -/
theorem C1_stale_vector_survives :
    delete_file_type
        "/Users/dev/code/agentconsult/app/usergroupchatcontext/utils/helpers.ts".data
      ≠ create_metadata_file_type
        "/Users/dev/code/agentconsult/app/usergroupchatcontext/utils/helpers.ts".data ∧
    docId (base_doc_id
        "/Users/dev/code/agentconsult/app/usergroupchatcontext/utils/helpers.ts".data) 2
      ∈ storeAfterRun
        (upsert_ids
          "/Users/dev/code/agentconsult/app/usergroupchatcontext/utils/helpers.ts".data 2)
        "/Users/dev/code/agentconsult/app/usergroupchatcontext/utils/helpers.ts".data 1 ∧
    docId (base_doc_id
        "/Users/dev/code/agentconsult/app/usergroupchatcontext/utils/helpers.ts".data) 2
      ∉ upsert_ids
        "/Users/dev/code/agentconsult/app/usergroupchatcontext/utils/helpers.ts".data 1 := by
  decide

/-- C2: for a candidate file that is actually indexed (not skipped, content
decodable), the ledger entry is written with the file's current hash exactly
when every chunk embedded and every issued upsert batch succeeded; if any
chunk's embedding or any upsert batch fails, the returned ledger is exactly
the ledger from before the call. -/
theorem C2_ledger_commit (ledger : Ledger) (j : FileJob) (force : Bool)
    (h1 : should_index_file j.path = true)
    (h2 : force = true ∨ List.lookup j.path ledger ≠ some j.hash)
    (h3 : j.content ≠ []) :
    (((∀ k, k < (chunk_text j.content CHUNK_SIZE CHUNK_OVERLAP).length →
          j.embedOk k = true) ∧
        (∀ i, i < (fileLoop j).calls → j.upsertOk i = true)) →
      (index_file ledger j force).ledger = ledgerSet j.path j.hash ledger) ∧
    (((∃ k, k < (chunk_text j.content CHUNK_SIZE CHUNK_OVERLAP).length ∧
          j.embedOk k = false) ∨
        (∃ i, i < (fileLoop j).calls ∧ j.upsertOk i = false)) →
      (index_file ledger j force).ledger = ledger) := by
  have hiff : ((fileLoop j).ok = true ↔
      ((∀ k, k < (chunk_text j.content CHUNK_SIZE CHUNK_OVERLAP).length →
          j.embedOk k = true) ∧
        (∀ i, i < (fileLoop j).calls → j.upsertOk i = true))) :=
    chunkLoop_ok_iff j.embedOk j.upsertOk (base_doc_id j.path)
      (chunk_text j.content CHUNK_SIZE CHUNK_OVERLAP)
  rw [index_file_run ledger j force h1 h2 h3]
  constructor
  · intro hall
    rw [if_pos (hiff.mpr hall)]
  · intro hfail
    have hok : ¬ ((fileLoop j).ok = true) := by
      intro hok
      rcases hiff.mp hok with ⟨hemb, hup⟩
      rcases hfail with ⟨k, hk, hke⟩ | ⟨i, hi, hiu⟩
      · rw [hemb k hk] at hke
        exact absurd hke (by simp)
      · rw [hup i hi] at hiu
        exact absurd hiu (by simp)
    rw [if_neg hok]

/-- C2 witness: the hypotheses hold for `jobA` under a forced run with an
empty ledger, and the theorem applies. -/
theorem C2_witness :
    (should_index_file jobA.path = true ∧
      ((true : Bool) = true ∨ List.lookup jobA.path ([] : Ledger) ≠ some jobA.hash) ∧
      jobA.content ≠ []) ∧
    ((((∀ k, k < (chunk_text jobA.content CHUNK_SIZE CHUNK_OVERLAP).length →
          jobA.embedOk k = true) ∧
        (∀ i, i < (fileLoop jobA).calls → jobA.upsertOk i = true)) →
      (index_file [] jobA true).ledger = ledgerSet jobA.path jobA.hash []) ∧
    (((∃ k, k < (chunk_text jobA.content CHUNK_SIZE CHUNK_OVERLAP).length ∧
          jobA.embedOk k = false) ∨
        (∃ i, i < (fileLoop jobA).calls ∧ jobA.upsertOk i = false)) →
      (index_file [] jobA true).ledger = [])) :=
  ⟨⟨by decide, Or.inl rfl, by decide⟩,
    C2_ledger_commit [] jobA true (by decide) (Or.inl rfl) (by decide)⟩

/-- C3: for a file whose current content hash equals the hash stored in the
ledger for its path, a non-forced `index_file` run issues no event at all —
no embedding call, no delete, no upsert — and returns the ledger
unchanged. -/
theorem C3_unchanged_file_skipped (ledger : Ledger) (j : FileJob)
    (h : List.lookup j.path ledger = some j.hash) :
    (index_file ledger j false).events = [] ∧
    (index_file ledger j false).ledger = ledger := by
  unfold index_file
  by_cases h1 : should_index_file j.path = false
  · rw [if_pos h1]
    exact ⟨rfl, rfl⟩
  · rw [if_neg h1, if_pos ⟨rfl, h⟩]
    exact ⟨rfl, rfl⟩

/-- C3 witness: `jobA` against a ledger already holding its hash. -/
theorem C3_witness :
    List.lookup jobA.path [(jobA.path, jobA.hash)] = some jobA.hash ∧
    ((index_file [(jobA.path, jobA.hash)] jobA false).events = [] ∧
      (index_file [(jobA.path, jobA.hash)] jobA false).ledger
        = [(jobA.path, jobA.hash)]) :=
  ⟨by decide, C3_unchanged_file_skipped [(jobA.path, jobA.hash)] jobA (by decide)⟩

/-- C7: during the embedding phase of an indexed file, every chunk is
submitted to the embedding provider in order regardless of earlier failures;
every successfully embedded chunk's document ID appears in some issued
upsert batch; and any embedding failure makes the file's overall result a
failure. -/
theorem C7_embed_failure_isolated (ledger : Ledger) (j : FileJob) (force : Bool)
    (h1 : should_index_file j.path = true)
    (h2 : force = true ∨ List.lookup j.path ledger ≠ some j.hash)
    (h3 : j.content ≠ []) :
    embedsOf (index_file ledger j force).events
      = chunk_text j.content CHUNK_SIZE CHUNK_OVERLAP ∧
    (∀ k, k < (chunk_text j.content CHUNK_SIZE CHUNK_OVERLAP).length →
      j.embedOk k = true →
      inUpsert (index_file ledger j force).events (docId (base_doc_id j.path) (k + 1))) ∧
    ((∃ k, k < (chunk_text j.content CHUNK_SIZE CHUNK_OVERLAP).length ∧
        j.embedOk k = false) →
      (index_file ledger j force).ok = false) := by
  have hev : (index_file ledger j force).events
      = fileDelEvents j ++ (fileLoop j).events := by
    rw [index_file_run ledger j force h1 h2 h3]
    split
    · rfl
    · rfl
  refine ⟨?_, ?_, ?_⟩
  · rw [hev, embedsOf_append]
    unfold fileDelEvents
    rw [embedsOf_delete_batches, List.nil_append]
    exact chunkLoop_embeds j.embedOk j.upsertOk (base_doc_id j.path)
      (chunk_text j.content CHUNK_SIZE CHUNK_OVERLAP)
  · intro k hk hke
    rw [hev]
    exact inUpsert_append_right _
      (chunkLoop_upserts j.embedOk j.upsertOk (base_doc_id j.path)
        (chunk_text j.content CHUNK_SIZE CHUNK_OVERLAP) k hk hke)
  · rintro ⟨k, hk, hke⟩
    rw [index_file_run ledger j force h1 h2 h3]
    have hok : ¬ ((fileLoop j).ok = true) := by
      intro hok
      have hemb := ((chunkLoop_ok_iff j.embedOk j.upsertOk (base_doc_id j.path)
        (chunk_text j.content CHUNK_SIZE CHUNK_OVERLAP)).mp hok).1 k hk
      rw [hemb] at hke
      exact absurd hke (by simp)
    rw [if_neg hok]

/-- C7 witness: the hypotheses hold for `jobFail` (provider fails on every
chunk) under a forced run, and the theorem applies. -/
theorem C7_witness :
    (should_index_file jobFail.path = true ∧
      ((true : Bool) = true ∨ List.lookup jobFail.path ([] : Ledger) ≠ some jobFail.hash) ∧
      jobFail.content ≠ []) ∧
    (embedsOf (index_file [] jobFail true).events
        = chunk_text jobFail.content CHUNK_SIZE CHUNK_OVERLAP ∧
      (∀ k, k < (chunk_text jobFail.content CHUNK_SIZE CHUNK_OVERLAP).length →
        jobFail.embedOk k = true →
        inUpsert (index_file [] jobFail true).events
          (docId (base_doc_id jobFail.path) (k + 1))) ∧
      ((∃ k, k < (chunk_text jobFail.content CHUNK_SIZE CHUNK_OVERLAP).length ∧
          jobFail.embedOk k = false) →
        (index_file [] jobFail true).ok = false)) :=
  ⟨⟨by decide, Or.inl rfl, by decide⟩,
    C7_embed_failure_isolated [] jobFail true (by decide) (Or.inl rfl) (by decide)⟩

/-- C8: a file whose content cannot be decoded in any attempted encoding is
skipped non-fatally: the run issues no embedding call and no upsert call for
it (its only events are the delete batches issued before the read), the
ledger is returned unchanged, the file counts as a failure, and a directory
run always processes every file (successes plus failures equal the file
count). -/
theorem C8_decode_failure_isolated (ledger : Ledger) (j : FileJob) (force : Bool)
    (h1 : should_index_file j.path = true)
    (h2 : force = true ∨ List.lookup j.path ledger ≠ some j.hash)
    (h3 : j.content = []) :
    ((index_file ledger j force).ledger = ledger ∧
      (index_file ledger j force).ok = false ∧
      embedsOf (index_file ledger j force).events = [] ∧
      (∀ ev ∈ (index_file ledger j force).events, ∃ ids, ev = Event.deleteBatch ids)) ∧
    (∀ (led : Ledger) (jobs : List FileJob) (f : Bool),
      (index_directory led jobs f).2.1 + (index_directory led jobs f).2.2
        = jobs.length) := by
  rw [index_file_decode_fail ledger j force h1 h2 h3]
  refine ⟨⟨rfl, rfl, ?_, ?_⟩, ?_⟩
  · exact embedsOf_delete_batches _
  · intro ev hevm
    obtain ⟨ids, -, hids⟩ := List.mem_map.mp hevm
    exact ⟨ids, hids.symm⟩
  · intro led jobs f
    have hc := foldl_dirStep_counts f jobs (led, 0, 0)
    unfold index_directory
    simpa using hc

/-- C8 witness: the hypotheses hold for `jobEmpty` (undecodable content)
under a forced run, and the theorem applies. -/
theorem C8_witness :
    (should_index_file jobEmpty.path = true ∧
      ((true : Bool) = true ∨ List.lookup jobEmpty.path ([] : Ledger) ≠ some jobEmpty.hash) ∧
      jobEmpty.content = []) ∧
    (((index_file [] jobEmpty true).ledger = [] ∧
      (index_file [] jobEmpty true).ok = false ∧
      embedsOf (index_file [] jobEmpty true).events = [] ∧
      (∀ ev ∈ (index_file [] jobEmpty true).events, ∃ ids, ev = Event.deleteBatch ids)) ∧
    (∀ (led : Ledger) (jobs : List FileJob) (f : Bool),
      (index_directory led jobs f).2.1 + (index_directory led jobs f).2.2
        = jobs.length)) :=
  ⟨⟨by decide, Or.inl rfl, rfl⟩,
    C8_decode_failure_isolated [] jobEmpty true (by decide) (Or.inl rfl) rfl⟩

end UpdateMemory

